import Mathlib

/-!
Verification development for the `scheduler` repository
(`backend/app/services/{day_weight_service, long_weekend_service,
assignment_history_service, scheduler}.py` and
`backend/app/models/holiday.py`).

Shallow embedding conventions:
* Python `datetime.date` is modelled by `Date` (proleptic Gregorian); its
  `toordinal` is `Date.ord`, `weekday()` is `Date.weekday` (Monday = 0).
* Python `float` weights are modelled as `ℚ`; `** 0.5` becomes `Real.sqrt`.
* Python dicts keyed by strings are modelled as association lists with
  `alookup` (first binding wins, mirroring "latest insert wins" when threaded
  by prepending the updated binding).
* Raising an exception is modelled by `Except`/`Option` results.
-/

namespace Scheduler

/-! ## Dates (model of `datetime.date`) -/

/-- Gregorian leap-year test, as in `calendar.isleap`. -/
def isLeap (y : Nat) : Bool :=
  (y % 4 == 0 && y % 100 != 0) || (y % 400 == 0)

/-- Number of days in a month, as in `calendar.monthrange(year, month)[1]`. -/
def daysInMonth (y m : Nat) : Nat :=
  if m = 2 then (if isLeap y then 29 else 28)
  else if m = 4 ∨ m = 6 ∨ m = 9 ∨ m = 11 then 30
  else 31

/-- A calendar date (year, month, day), the model of `datetime.date`. -/
structure Date where
  year : Nat
  month : Nat
  day : Nat
deriving DecidableEq, Repr

/-- Days in all years strictly before year `y` (proleptic Gregorian). -/
def daysBeforeYear (y : Nat) : Nat :=
  365 * (y - 1) + (y - 1) / 4 + (y - 1) / 400 - (y - 1) / 100

/-- Days in the months of year `y` strictly before month `m`. -/
def daysBeforeMonth (y m : Nat) : Nat :=
  (List.range' 1 (m - 1)).foldl (fun acc mm => acc + daysInMonth y mm) 0

/-- `datetime.date.toordinal`: 0001-01-01 has ordinal 1. -/
def Date.ord (d : Date) : Nat :=
  daysBeforeYear d.year + daysBeforeMonth d.year d.month + d.day

/-- `datetime.date.weekday`: Monday = 0 … Sunday = 6. -/
def Date.weekday (d : Date) : Nat := (d.ord + 6) % 7

/-- The next calendar day (`date + timedelta(days=1)`). -/
def Date.next (d : Date) : Date :=
  if d.day < daysInMonth d.year d.month then ⟨d.year, d.month, d.day + 1⟩
  else if d.month < 12 then ⟨d.year, d.month + 1, 1⟩
  else ⟨d.year + 1, 1, 1⟩

/-- `date + timedelta(days=n)`. -/
def Date.addDays (d : Date) : Nat → Date
  | 0 => d
  | n + 1 => (d.addDays n).next

/-! ## Association-list lookup (model of Python dict lookup) -/

/-- Dict lookup: first binding for the key wins.  State updates below prepend
the fresh binding, so the first binding is the most recent write. -/
def alookup {α β : Type} [DecidableEq α] : List (α × β) → α → Option β
  | [], _ => none
  | (k, v) :: l, a => if a = k then some v else alookup l a

/-! ## Day types and weights (`day_weight_service.py`, `assignment_history_db.py`) -/

/-- `DayType` enum from `app/models/assignment_history_db.py`. -/
inductive DayType
  | REGULAR
  | FRIDAY
  | WEEKEND
  | HOLIDAY
  | LONG_WEEKEND_MIDDLE
deriving DecidableEq, Repr

/-- The default `_weights` table set up in `DayWeightService.__init__`. -/
def defaultWeights : DayType → ℚ
  | .REGULAR => 1
  | .FRIDAY => 6 / 5
  | .WEEKEND => 3 / 2
  | .HOLIDAY => 2
  | .LONG_WEEKEND_MIDDLE => 5 / 2

/-- `DayWeightService.get_base_weight`. -/
def get_base_weight (w : DayType → ℚ) (day_type : DayType) : ℚ := w day_type

/-- `DayWeightService.set_weight`: rejects non-positive weights
(`ValueError`), otherwise updates the `_weights` table. -/
def set_weight (w : DayType → ℚ) (day_type : DayType) (weight : ℚ) :
    Except Unit (DayType → ℚ) :=
  if weight ≤ 0 then .error ()
  else .ok (fun dt => if dt = day_type then weight else w dt)

/-! ## Holidays (`app/models/holiday.py`) -/

/-- `Holiday` pydantic model: `start_date`, optional `end_date`
(the unused `name` field is omitted). -/
structure Holiday where
  start_date : Date
  end_date : Option Date
deriving DecidableEq, Repr

/-- `Holiday.get_dates`: all dates of the holiday, inclusive.  The Python
loop collects `start_date, start_date+1, …` while `current <= end_date`,
so it yields `end.ord - start.ord + 1` consecutive days (and `[]` if
`end_date < start_date`, which the pydantic validator forbids). -/
def Holiday.get_dates (h : Holiday) : List Date :=
  match h.end_date with
  | none => [h.start_date]
  | some e =>
    if e = h.start_date then [h.start_date]
    else (List.range (e.ord + 1 - h.start_date.ord)).map h.start_date.addDays

/-! ## Long weekends (`app/services/long_weekend_service.py`) -/

/-- `LongWeekendService._min_long_weekend_days`. -/
def min_long_weekend_days : Nat := 3

/-- One entry of the list returned by `find_long_weekends`
(`{'start_date': …, 'end_date': …}`). -/
structure Period where
  start_date : Date
  end_date : Date
deriving DecidableEq, Repr

/-- `LongWeekendService.find_long_weekends`: holidays overlapping the given
year/month whose span is at least `min_long_weekend_days`, in list order. -/
def find_long_weekends (holidays : List Holiday) (year month : Nat) :
    List Period :=
  holidays.filterMap fun h =>
    let ds := h.get_dates
    if ds.any (fun d => d.year == year && d.month == month) then
      if min_long_weekend_days ≤ ds.length then
        match ds with
        | [] => none   -- unreachable: the overlap test fails on `[]`
        | d0 :: _ => some ⟨d0, ds.getLastD d0⟩
      else none
    else none

/-! ## Day classification (`app/services/day_weight_service.py`)

`DayWeightService` defines `get_day_type` twice.  The first definition
(lines 46–76) takes a holiday list and implements the documented precedence;
the second definition (lines 114–133) takes `is_holiday: bool` and, being
later in the class body, shadows the first.  Both are embedded. -/

/-- `DayWeightService.is_weekend`. -/
def is_weekend (d : Date) : Bool := 5 ≤ d.weekday

/-- `DayWeightService.is_friday`. -/
def is_friday (d : Date) : Bool := d.weekday == 4

/-- Weekday branch shared by both `get_day_type` definitions:
Friday / weekend / regular. -/
def weekdayDayType (d : Date) : DayType :=
  if d.weekday = 4 then .FRIDAY
  else if 5 ≤ d.weekday then .WEEKEND
  else .REGULAR

/-- Holiday-scan loop of the first (shadowed) `get_day_type`: find the first
holiday containing the date.  Comparing a date with a `None` end date raises
`TypeError` in Python (`start <= d <= None`), modelled as `.error ()`. -/
def classifyHolidayList (d : Date) (all : List Holiday) :
    List Holiday → Except Unit (Option DayType)
  | [] => .ok none
  | h :: rest =>
    if h.start_date.ord ≤ d.ord then
      match h.end_date with
      | none => .error ()
      | some e =>
        if d.ord ≤ e.ord then
          .ok (some
            (if (find_long_weekends all d.year d.month).any
                (fun lw => lw.start_date.ord < d.ord && d.ord < lw.end_date.ord)
             then .LONG_WEEKEND_MIDDLE else .HOLIDAY))
        else classifyHolidayList d all rest
    else classifyHolidayList d all rest

/-- First (shadowed) definition of `DayWeightService.get_day_type`
(lines 46–76): holiday-list based, with long-weekend-middle detection. -/
def get_day_type_v1 (target_date : Date) (holidays : List Holiday) :
    Except Unit DayType :=
  if holidays.isEmpty then .ok (weekdayDayType target_date)
  else
    match classifyHolidayList target_date holidays holidays with
    | .error () => .error ()
    | .ok (some t) => .ok t
    | .ok none => .ok (weekdayDayType target_date)

/-- Second definition of `DayWeightService.get_day_type` (lines 114–133).
This one wins: it is the method actually bound on the class. -/
def get_day_type (target_date : Date) (is_holiday : Bool) : DayType :=
  if is_holiday then .HOLIDAY
  else if is_weekend target_date then .WEEKEND
  else if is_friday target_date then .FRIDAY
  else .REGULAR

/-- The effective classifier at call sites that still pass a holiday *list*
(e.g. `scheduler.py` line 349): the list lands in the `is_holiday` parameter
and is used by Python truthiness, so any non-empty list means `True`. -/
def get_day_type_listArg (target_date : Date) (holidays : List Holiday) :
    DayType :=
  get_day_type target_date (!holidays.isEmpty)

/-- `DayWeightService.calculate_weight`: with `day_type=None` it classifies
via the (surviving) `get_day_type` with its default `is_holiday=False`;
otherwise it returns the base weight of the given day type. -/
def calculate_weight (w : DayType → ℚ) (target_date : Date)
    (day_type : Option DayType) : ℚ :=
  get_base_weight w (day_type.getD (get_day_type target_date false))

/-! ## Assignment history (`app/services/assignment_history_service.py`) -/

/-- A persisted `assignment_history` row (`AssignmentHistoryDB`).  Rows are
kept in insertion order, so "order by id desc, first" is the last list
element among the matching rows. -/
structure AHRecord where
  person : String
  group_id : String
  date : Date
  day_type : DayType
  weight : ℚ
  cumulative_regular_days : Nat
  cumulative_weighted_days : ℚ
  cumulative_total_days : Nat
deriving DecidableEq, Repr

/-- The `AssignmentHistory` pydantic input model (cumulative fields carry
defaults and are ignored by `record_assignment`, so they are omitted). -/
structure AssignmentHistory where
  person : String
  group_id : String
  assignment_date : Date
  day_type : DayType
  weight : ℚ
deriving DecidableEq, Repr

/-- The most recent `assignment_history` row for `(person, group)`:
`query.filter(person, group).order_by(id.desc()).first()`. -/
def latestFor (ledger : List AHRecord) (person group_id : String) :
    Option AHRecord :=
  (ledger.filter (fun r => r.person = person ∧ r.group_id = group_id)).getLast?

/-- `AssignmentHistoryService.record_assignment`: carries the last row's
cumulative counters forward, recomputes the weight from the day type via its
own (default-configured) `DayWeightService`, and appends one new row.
Returns the new row and the extended ledger. -/
def record_assignment (a : AssignmentHistory) (ledger : List AHRecord) :
    AHRecord × List AHRecord :=
  let latest := latestFor ledger a.person a.group_id
  let creg := (latest.map (·.cumulative_regular_days)).getD 0
  let cw := (latest.map (·.cumulative_weighted_days)).getD 0
  let ct := (latest.map (·.cumulative_total_days)).getD 0
  let weight := calculate_weight defaultWeights a.assignment_date (some a.day_type)
  let creg := if a.day_type = .REGULAR then creg + 1 else creg
  let cw := cw + weight
  let ct := ct + 1
  let r : AHRecord :=
    ⟨a.person, a.group_id, a.assignment_date, a.day_type, weight, creg, cw, ct⟩
  (r, ledger ++ [r])

/-- The per-person aggregate computed by
`AssignmentHistoryService.get_person_stats` (the SQL aggregation query). -/
structure AssignmentStats where
  total_assignments : Nat
  total_weighted_score : ℚ
  regular_days : Nat
  weekend_days : Nat
  holiday_days : Nat
deriving DecidableEq, Repr

/-- `AssignmentHistoryService.get_person_stats`. -/
def get_person_stats (ledger : List AHRecord) (person group_id : String) :
    AssignmentStats :=
  let rows := ledger.filter (fun r => r.person = person ∧ r.group_id = group_id)
  { total_assignments := rows.length
    total_weighted_score := (rows.map (·.weight)).sum
    regular_days := (rows.filter (fun r => r.day_type = .REGULAR)).length
    weekend_days := (rows.filter (fun r => r.day_type = .WEEKEND)).length
    holiday_days := (rows.filter (fun r => r.day_type = .HOLIDAY)).length }

/-- `AssignmentHistoryService.get_group_stats`: stats for each distinct
person with a row in the group. -/
def get_group_stats (ledger : List AHRecord) (group_id : String) :
    List (String × AssignmentStats) :=
  let people := ((ledger.filter (fun r => r.group_id = group_id)).map
    (·.person)).eraseDups
  people.map (fun p => (p, get_person_stats ledger p group_id))

/-- First element of the fold used below; `[]` maps to `0`
(unreachable: Python `max`/`min` are only called on non-empty lists). -/
def listMax (l : List ℚ) : ℚ :=
  match l with
  | [] => 0
  | x :: xs => xs.foldl max x

/-- Minimum of a weighted-score list, `0` on `[]` (unreachable). -/
def listMin (l : List ℚ) : ℚ :=
  match l with
  | [] => 0
  | x :: xs => xs.foldl min x

/-- Maximum of the total-assignment counts, `0` on `[]` (unreachable). -/
def listMaxN (l : List Nat) : Nat :=
  match l with
  | [] => 0
  | x :: xs => xs.foldl max x

/-- Minimum of the total-assignment counts, `0` on `[]` (unreachable). -/
def listMinN (l : List Nat) : Nat :=
  match l with
  | [] => 0
  | x :: xs => xs.foldl min x

/-- The dictionary returned by `get_fairness_metrics`. -/
structure FairnessOut where
  weighted_std_dev : ℝ
  max_weighted_diff : ℚ
  max_total_diff : Nat

/-- `AssignmentHistoryService.get_fairness_metrics`: zeros when the group has
no recorded assignments; otherwise population standard deviation of the
persons' total weighted scores and max-minus-min of scores and of counts
(`variance ** 0.5` is `Real.sqrt`). -/
noncomputable def get_fairness_metrics (ledger : List AHRecord)
    (group_id : String) : FairnessOut :=
  let stats := get_group_stats ledger group_id
  if stats.isEmpty then ⟨0, 0, 0⟩
  else
    let weighted_scores := stats.map (·.2.total_weighted_score)
    let total_assignments := stats.map (·.2.total_assignments)
    let mean_weighted : ℚ := weighted_scores.sum / (weighted_scores.length : ℚ)
    let weighted_variance : ℚ :=
      (weighted_scores.map (fun x => (x - mean_weighted) ^ 2)).sum /
        (weighted_scores.length : ℚ)
    { weighted_std_dev := Real.sqrt (weighted_variance : ℝ)
      max_weighted_diff := listMax weighted_scores - listMin weighted_scores
      max_total_diff := listMaxN total_assignments - listMinN total_assignments }

/-- Population variance, spec-side: the mean of squared deviations from the
mean ("population standard deviation" is its square root). -/
def popVariance (xs : List ℚ) : ℚ :=
  (xs.map (fun x => (x - xs.sum / (xs.length : ℚ)) ^ 2)).sum / (xs.length : ℚ)

/-- The fairness example of the spec (and of
`test_get_fairness_metrics`): John is recorded on a holiday and a weekend
day (weighted score 3.5), Jane on a regular day (weighted score 1.0). -/
def exampleLedger : List AHRecord :=
  (record_assignment ⟨"Jane", "group1", ⟨2024, 1, 3⟩, .REGULAR, 1⟩
    ((record_assignment ⟨"John", "group1", ⟨2024, 1, 2⟩, .WEEKEND, 3 / 2⟩
      ((record_assignment ⟨"John", "group1", ⟨2024, 1, 1⟩, .HOLIDAY, 2⟩
        []).2)).2)).2

/-- The two distinct persons' weighted scores of the fairness example, in
the order `get_group_stats` produces them. -/
def exampleScores : List ℚ := [[(2 : ℚ), 3 / 2].sum, [(1 : ℚ)].sum]

/-! ## Rotation engine (`app/services/scheduler.py`) -/

/-- One value of `SchedulerService._person_constraints`
(`{'min_days': …, 'max_days': …}`). -/
structure Constraint where
  min_days : Option Nat
  max_days : Option Nat
deriving DecidableEq, Repr

/-- `SchedulerService._person_constraints` (dict in insertion order). -/
abbrev ConstraintMap := List (String × Constraint)

/-- `SchedulerService._groups` (dict in insertion order):
group id to ordered member list. -/
abbrev Groups := List (String × List String)

/-- The transient per-run state of `generate_monthly_schedule`.
`last_scheduled` stores the ordinal of the person's last scheduled date
(the Python dict stores the ISO date string; for dates the two orderings
and equalities agree, with the sentinel `"0000-00-00"` mapping to `0`,
below every real ordinal). -/
structure RunState where
  last_scheduled : List (String × Nat)
  assignments_count : List (String × Nat)
  ledger : List AHRecord
deriving DecidableEq, Repr

/-- The max-days half of the elegibility test: `person not in constraints
or constraints[person]['max_days'] is None or count < max_days`. -/
def maxDaysOk (constraints : ConstraintMap) (counts : List (String × Nat))
    (p : String) : Bool :=
  match alookup constraints p with
  | none => true
  | some c =>
    match c.max_days with
    | none => true
    | some mx => decide ((alookup counts p).getD 0 < mx)

/-- The whole eligibility test for one member on one day:
not scheduled yesterday, and within the max-days cap. -/
def eligB (constraints : ConstraintMap) (last : List (String × Nat))
    (counts : List (String × Nat)) (yesterday : Nat) (p : String) : Bool :=
  (match alookup last p with
   | none => true
   | some o => decide (o ≠ yesterday)) && maxDaysOk constraints counts p

/-- The `eligible_members` list comprehension in
`generate_monthly_schedule` (scheduler.py lines 325–338). -/
def eligibleMembers (constraints : ConstraintMap) (last counts : List (String × Nat))
    (yesterday : Nat) (members : List String) : List String :=
  members.filter (eligB constraints last counts yesterday)

/-- CPython's `min(xs, key=key)`: fold keeping the current best, replacing
it only when a strictly smaller key appears — so the first minimum wins. -/
def minByKey (key : String → Nat) : List String → Option String
  | [] => none
  | x :: xs => some (xs.foldl (fun best q => if key q < key best then q else best) x)

/-- The `lambda p: last_scheduled.get(p, "0000-00-00")` sort key, with date
strings replaced by ordinals (`0` for the sentinel). -/
def lastKey (last : List (String × Nat)) (p : String) : Nat :=
  (alookup last p).getD 0

/-- The min-days filter in `_select_person`: an unmet `min_days`
constraint. -/
def minDaysUnmet (constraints : ConstraintMap) (counts : List (String × Nat))
    (p : String) : Bool :=
  match alookup constraints p with
  | none => false
  | some c =>
    match c.min_days with
    | none => false
    | some mn => decide ((alookup counts p).getD 0 < mn)

/-- `SchedulerService._select_person`.  `none` models the `ValueError`
Python's `min` raises on an empty candidate list (only reachable for an
empty member list). -/
def select_person (constraints : ConstraintMap) (eligible_members : List String)
    (last : List (String × Nat)) (counts : List (String × Nat)) :
    Option String :=
  let min_day_candidates := eligible_members.filter (minDaysUnmet constraints counts)
  if min_day_candidates.isEmpty then
    match eligible_members.filter (fun p => (alookup last p).isNone) with
    | p :: _ => some p
    | [] => minByKey (lastKey last) eligible_members
  else
    match min_day_candidates.filter (fun p => (alookup last p).isNone) with
    | p :: _ => some p
    | [] => minByKey (lastKey last) min_day_candidates

/-- The per-group body of the day loop (scheduler.py lines 324–360):
eligibility, fallback to the full member list, selection, state update and
history recording.  Returns the chosen person, whether the fallback fired,
and the updated state. -/
def process_group (constraints : ConstraintMap) (holidays : List Holiday)
    (d : Date) (st : RunState) (group_id : String) (members : List String) :
    Option (String × Bool × RunState) :=
  let yesterday := d.ord - 1
  let elig := eligibleMembers constraints st.last_scheduled st.assignments_count
    yesterday members
  let fallback := elig.isEmpty
  let elig2 := if fallback then members else elig
  match select_person constraints elig2 st.last_scheduled st.assignments_count with
  | none => none
  | some chosen =>
    let day_type := get_day_type_listArg d holidays
    let a : AssignmentHistory :=
      ⟨chosen, group_id, d, day_type, calculate_weight defaultWeights d (some day_type)⟩
    some (chosen, fallback,
      { last_scheduled := (chosen, d.ord) :: st.last_scheduled
        assignments_count :=
          (chosen, (alookup st.assignments_count chosen).getD 0 + 1) :: st.assignments_count
        ledger := (record_assignment a st.ledger).2 })

/-- The `for group_id, members in self._groups.items()` loop for one day:
returns the day's `{group: person}` schedule, the ids of groups whose
eligibility set was empty (fallback fired), and the final state. -/
def process_groups (constraints : ConstraintMap) (holidays : List Holiday)
    (d : Date) : Groups → RunState →
    Option (List (String × String) × List String × RunState)
  | [], st => some ([], [], st)
  | (gid, members) :: rest, st =>
    match process_group constraints holidays d st gid members with
    | none => none
    | some (chosen, fb, st1) =>
      match process_groups constraints holidays d rest st1 with
      | none => none
      | some (sch, fbs, st2) =>
        some ((gid, chosen) :: sch, (if fb then [gid] else []) ++ fbs, st2)

/-- The `for day in range(1, num_days + 1)` loop: returns the schedule
(day of month to group assignments), the fallback log (day, group), and the
final state. -/
def run_days (constraints : ConstraintMap) (holidays : List Holiday)
    (groups : Groups) (y m : Nat) : List Nat → RunState →
    Option (List (Nat × List (String × String)) × List (Nat × String) × RunState)
  | [], st => some ([], [], st)
  | day :: rest, st =>
    match process_groups constraints holidays ⟨y, m, day⟩ groups st with
    | none => none
    | some (ds, fbs, st1) =>
      match run_days constraints holidays groups y m rest st1 with
      | none => none
      | some (sch, fbl, st2) =>
        some ((day, ds) :: sch, fbs.map (fun g => (day, g)) ++ fbl, st2)

/-- The post-run minimum-days validation (scheduler.py lines 366–374):
the first constraint entry, in insertion order, whose `min_days` is unmet,
together with the required and the actual count. -/
def check_min_days (constraints : ConstraintMap)
    (counts : List (String × Nat)) : Option (String × Nat × Nat) :=
  constraints.findSome? (fun pc =>
    match pc.2.min_days with
    | none => none
    | some mn =>
      if (alookup counts pc.1).getD 0 < mn then
        some (pc.1, mn, (alookup counts pc.1).getD 0)
      else none)

/-- The errors `generate_monthly_schedule` raises.  `invalid_schedule_*`
are `InvalidScheduleError`, `insufficient_members*` are
`InsufficientGroupMembersError`; `runtime_error` stands for the `ValueError`
of `min([])` (unreachable once the preconditions passed). -/
inductive SchedError
  | invalid_schedule_no_groups
  | insufficient_members_empty (gs : List String)
  | insufficient_members (g : String)
  | invalid_schedule_unmet_min (person : String) (required actual : Nat)
  | runtime_error
deriving DecidableEq, Repr

/-- `Settings.min_group_members` default. -/
def min_group_members : Nat := 2

/-- `SchedulerService.generate_monthly_schedule`.  Besides the returned
schedule (or raised error), the model exposes the two other observables:
the persisted assignment-history ledger (threaded from `ledger0`, committed
row by row and never rolled back) and, as instrumentation for the testable
properties, the log of (day, group) pairs on which the eligibility fallback
(scheduler.py lines 340–341) fired. -/
def generate_monthly_schedule (y m : Nat) (holidays : List Holiday)
    (groups : Groups) (constraints : ConstraintMap) (ledger0 : List AHRecord) :
    List AHRecord × List (Nat × String) ×
      Except SchedError (List (Nat × List (String × String))) :=
  if groups.isEmpty then (ledger0, [], .error .invalid_schedule_no_groups)
  else
    let empty_groups := (groups.filter (fun g => g.2.isEmpty)).map (·.1)
    if ¬ empty_groups.isEmpty then
      (ledger0, [], .error (.insufficient_members_empty empty_groups))
    else
      match groups.find? (fun g => decide (g.2.length < min_group_members)) with
      | some g => (ledger0, [], .error (.insufficient_members g.1))
      | none =>
        let num_days := daysInMonth y m
        match run_days constraints holidays groups y m
          (List.range' 1 num_days) ⟨[], [], ledger0⟩ with
        | none => (ledger0, [], .error .runtime_error)
        | some (sch, fbl, st) =>
          match check_min_days constraints st.assignments_count with
          | some (p, req, act) =>
            (st.ledger, fbl, .error (.invalid_schedule_unmet_min p req act))
          | none => (st.ledger, fbl, .ok sch)

/-- Look up the person assigned to `group_id` on day `day` of the month in
a generated schedule. -/
def schedLookup (sch : List (Nat × List (String × String))) (day : Nat)
    (group_id : String) : Option String :=
  (alookup sch day).bind (fun ds => alookup ds group_id)

/-- Project the schedule out of a `generate_monthly_schedule` result
(`[]` when an error was raised). -/
def okSched (r : List AHRecord × List (Nat × String) ×
    Except SchedError (List (Nat × List (String × String)))) :
    List (Nat × List (String × String)) :=
  match r.2.2 with
  | .ok s => s
  | .error _ => []

/-- Whether a `generate_monthly_schedule` result is a success. -/
def genOk (r : List AHRecord × List (Nat × String) ×
    Except SchedError (List (Nat × List (String × String)))) : Bool :=
  match r.2.2 with
  | .ok _ => true
  | .error _ => false

/-! ## Group/person registry mutation (`scheduler.py` lines 235–278)

`_person_constraints` is a single dict keyed by person name only; Python's
`del` removes that key's (unique) binding, modelled as removing every
binding of the key from the association list. -/

/-- The in-memory registry part of `SchedulerService`
(`_groups` and `_person_constraints`). -/
structure SchedulerState where
  groups : Groups
  constraints : ConstraintMap
deriving DecidableEq, Repr

/-- `SchedulerService.remove_person_from_group`: removes the person from the
group's member list and deletes their (global) constraints entry. -/
def remove_person_from_group (st : SchedulerState) (person group_id : String) :
    SchedulerState × Bool :=
  match alookup st.groups group_id with
  | none => (st, false)
  | some members =>
    if person ∈ members then
      ({ groups := st.groups.map
           (fun g => (g.1, if g.1 = group_id then g.2.erase person else g.2))
         constraints := st.constraints.filter (fun pc => decide (pc.1 ≠ person)) },
       true)
    else (st, false)

/-- `SchedulerService.delete_group`: drops the group and deletes the
constraints entry of every one of its members. -/
def delete_group (st : SchedulerState) (group_id : String) :
    SchedulerState × Bool :=
  match alookup st.groups group_id with
  | none => (st, false)
  | some members =>
    ({ groups := st.groups.filter (fun g => decide (g.1 ≠ group_id))
       constraints := members.foldl
         (fun cs p => cs.filter (fun pc => decide (pc.1 ≠ p))) st.constraints },
     true)

/-! ## Specification-side selection policy (for the refinement claim about
`_select_person`).  These definitions follow the spec's words
(§4.5 step 3), not the code: "prefer one never yet assigned (first such by
group member order); else pick the one with the oldest lastAssignedDate",
"tie-break: stable iteration order of the member list (first encountered
wins)". -/

/-- The first element of `l` (in list order) whose key is minimal. -/
def firstMinBy (key : String → Nat) (l : List String) : Option String :=
  l.find? (fun p => l.all (fun q => decide (key p ≤ key q)))

/-- The selection policy as the spec words it: among the catch-up
candidates (unmet `min_days`) if any, else among all eligible members,
prefer the first never-yet-assigned member, else the first member with the
oldest last-assigned date. -/
def spec_select_person (constraints : ConstraintMap)
    (eligible_members : List String) (last : List (String × Nat))
    (counts : List (String × Nat)) : Option String :=
  let catch_up := eligible_members.filter (minDaysUnmet constraints counts)
  let pool := if catch_up.isEmpty then eligible_members else catch_up
  match pool.find? (fun p => (alookup last p).isNone) with
  | some p => some p
  | none => firstMinBy (lastKey last) pool

/-- Whether a `generate_monthly_schedule` outcome is one of the three
precondition errors (raised before any day is scheduled), as opposed to the
post-run minimum-days error or a success. -/
def isPrecondError
    (e : Except SchedError (List (Nat × List (String × String)))) : Bool :=
  match e with
  | .error .invalid_schedule_no_groups => true
  | .error (.insufficient_members_empty _) => true
  | .error (.insufficient_members _) => true
  | _ => false

instance {ε α : Type} [DecidableEq ε] [DecidableEq α] :
    DecidableEq (Except ε α) := fun a b =>
  match a, b with
  | .ok x, .ok y =>
    match decEq x y with
    | isTrue h => isTrue (by rw [h])
    | isFalse h => isFalse (fun hc => h (by injection hc))
  | .error x, .error y =>
    match decEq x y with
    | isTrue h => isTrue (by rw [h])
    | isFalse h => isFalse (fun hc => h (by injection hc))
  | .ok _, .error _ => isFalse (fun hc => Except.noConfusion hc)
  | .error _, .ok _ => isFalse (fun hc => Except.noConfusion hc)

/-! ## Theorems for the claims -/

/-- C1: the claim says `classify(d, H)` follows the documented precedence,
with `classify(Mar 30 2024) = long_weekend_middle` (weight 2.5) and
`classify(Mar 29 2024) = holiday` (weight 2.0) for the holiday
Mar 29 – Apr 1, 2024.  The *shadowed* first `get_day_type` definition
(`get_day_type_v1`) indeed produces exactly those values, but the
surviving second definition — the one `generate_monthly_schedule` actually
calls with a holiday list (`get_day_type_listArg`) — classifies Mar 30 as
`HOLIDAY` (weight 2.0), because the list is consumed as a truthy
`is_holiday` flag.  This theorem evaluates the code at the failing
input. -/
theorem c1_shadowed_classifier_divergence :
    (get_day_type_listArg ⟨2024, 3, 30⟩ [⟨⟨2024, 3, 29⟩, some ⟨2024, 4, 1⟩⟩]
      = .HOLIDAY) ∧
    (calculate_weight defaultWeights ⟨2024, 3, 30⟩
      (some (get_day_type_listArg ⟨2024, 3, 30⟩
        [⟨⟨2024, 3, 29⟩, some ⟨2024, 4, 1⟩⟩])) = 2) ∧
    (get_day_type_v1 ⟨2024, 3, 30⟩ [⟨⟨2024, 3, 29⟩, some ⟨2024, 4, 1⟩⟩]
      = .ok .LONG_WEEKEND_MIDDLE) ∧
    (get_day_type_v1 ⟨2024, 3, 29⟩ [⟨⟨2024, 3, 29⟩, some ⟨2024, 4, 1⟩⟩]
      = .ok .HOLIDAY) ∧
    get_base_weight defaultWeights .LONG_WEEKEND_MIDDLE = 5 / 2 ∧
    get_base_weight defaultWeights .HOLIDAY = 2 ∧
    DayType.HOLIDAY ≠ DayType.LONG_WEEKEND_MIDDLE :=
  ⟨by decide, rfl, by decide, by decide, rfl, rfl, by decide⟩

/-- C2: the surviving `get_day_type` consumes its second argument by
truthiness only.  Any non-empty holiday list (as passed by
`generate_monthly_schedule`) yields `HOLIDAY` for every date; an empty
(or `None`) list never yields `HOLIDAY`; and no input at all yields
`LONG_WEEKEND_MIDDLE`. -/
theorem c2_truthiness_classifier (d : Date) (holidays : List Holiday)
    (b : Bool) :
    (holidays ≠ [] → get_day_type_listArg d holidays = .HOLIDAY) ∧
    get_day_type_listArg d [] ≠ .HOLIDAY ∧
    get_day_type d b ≠ .LONG_WEEKEND_MIDDLE := by
  refine ⟨fun h => ?_, ?_, ?_⟩
  · simp [get_day_type_listArg, get_day_type, List.isEmpty_iff, h]
  · simp only [get_day_type_listArg, get_day_type, List.isEmpty_nil]
    split <;> simp_all
    split <;> simp_all
    split <;> simp_all
  · simp only [get_day_type]
    split <;> try simp_all
    split <;> try simp_all
    split <;> simp_all

/-- Witness for C2 at a concrete date and non-empty holiday list. -/
theorem c2_truthiness_classifier_witness :
    ([(⟨⟨2024, 3, 29⟩, some ⟨2024, 4, 1⟩⟩ : Holiday)] ≠ []) ∧
    get_day_type_listArg ⟨2024, 3, 30⟩ [⟨⟨2024, 3, 29⟩, some ⟨2024, 4, 1⟩⟩]
      = .HOLIDAY :=
  ⟨by decide,
   (c2_truthiness_classifier ⟨2024, 3, 30⟩
     [⟨⟨2024, 3, 29⟩, some ⟨2024, 4, 1⟩⟩] true).1 (by decide)⟩

/-- C3 counterexample: the claim says that for weekend dates and *every*
positive weight configuration, `weight(d, holiday)` is
`max(holiday_weight, weekend_weight)`.  `calculate_weight` has no such
merge rule: after the (valid) `set_weight(WEEKEND, 3.0)`, the weight of a
Saturday holiday (Mar 30, 2024) is still the bare holiday base weight 2,
not `max(2, 3) = 3`. -/
theorem c3_no_weekend_merge_counterexample :
    ∃ w : DayType → ℚ,
      set_weight defaultWeights .WEEKEND 3 = .ok w ∧
      is_weekend ⟨2024, 3, 30⟩ = true ∧
      calculate_weight w ⟨2024, 3, 30⟩ (some .HOLIDAY) = 2 ∧
      max (w .HOLIDAY) (w .WEEKEND) = 3 ∧
      (2 : ℚ) ≠ 3 := by
  refine ⟨fun dt => if dt = .WEEKEND then 3 else defaultWeights dt,
    ?_, by decide, by decide, by decide, by norm_num⟩
  simp [set_weight]

/-- C3 amended: `calculate_weight` with an explicit day type returns the
base weight of that day type for *every* date and weight configuration —
there is no weekend/holiday merge.  Under the default configuration the
claimed `max(holiday_weight, weekend_weight)` coincides with the base
holiday weight (2 ≥ 1.5), which is why the two descriptions agree there. -/
theorem c3_amended_weight_is_base_weight (w : DayType → ℚ) (d : Date)
    (dt : DayType) :
    calculate_weight w d (some dt) = get_base_weight w dt ∧
    (is_weekend d = true →
      calculate_weight defaultWeights d (some .HOLIDAY) =
        max (get_base_weight defaultWeights .HOLIDAY)
          (get_base_weight defaultWeights .WEEKEND)) := by
  refine ⟨rfl, fun _ => ?_⟩
  show (2 : ℚ) = max 2 (3 / 2)
  norm_num

/-- Witness for C3 amended at a concrete weekend date. -/
theorem c3_amended_weight_is_base_weight_witness :
    calculate_weight defaultWeights ⟨2024, 3, 30⟩ (some .FRIDAY)
        = get_base_weight defaultWeights .FRIDAY ∧
      is_weekend ⟨2024, 3, 30⟩ = true ∧
      calculate_weight defaultWeights ⟨2024, 3, 30⟩ (some .HOLIDAY) =
        max (get_base_weight defaultWeights .HOLIDAY)
          (get_base_weight defaultWeights .WEEKEND) :=
  ⟨(c3_amended_weight_is_base_weight defaultWeights ⟨2024, 3, 30⟩ .FRIDAY).1,
   by decide,
   (c3_amended_weight_is_base_weight defaultWeights ⟨2024, 3, 30⟩ .FRIDAY).2
     (by decide)⟩

/-- C8 counterexample: the claim says the call's `weight` argument is added
to `cumulative_weighted_days`.  `record_assignment` ignores the argument
and recomputes the weight from the day type: a regular-day record passed
with `weight = 99` gets `cumulative_weighted_days = 1`, not `99`. -/
theorem c8_weight_argument_ignored_counterexample :
    (⟨"A", "g", ⟨2024, 1, 1⟩, .REGULAR, 99⟩ : AssignmentHistory).weight = 99 ∧
    (record_assignment ⟨"A", "g", ⟨2024, 1, 1⟩, .REGULAR, 99⟩ []).1.cumulative_weighted_days = 1 ∧
    (1 : ℚ) ≠ 99 := by
  refine ⟨rfl, ?_, by norm_num⟩
  show (0 : ℚ) + get_base_weight defaultWeights .REGULAR = 1
  norm_num [get_base_weight, defaultWeights]

/-- C8 amended: `record_assignment` carries forward the cumulative counters
of the most recent record for `(person, group)` (zeros when none exists),
increments `cumulative_total_days` by 1, `cumulative_regular_days` by 1 iff
the day type is regular, and adds the *base weight of the day type*
(recomputed through its weight service — the record's `weight` argument is
ignored) to `cumulative_weighted_days`.  The ledger is append-only: the new
ledger is the old one plus the new record, and the new record becomes the
latest for its `(person, group)`. -/
theorem c8_record_assignment_cumulative (a : AssignmentHistory)
    (ledger : List AHRecord) :
    (record_assignment a ledger).2 = ledger ++ [(record_assignment a ledger).1] ∧
    (record_assignment a ledger).1.cumulative_total_days =
      ((latestFor ledger a.person a.group_id).map
        (·.cumulative_total_days)).getD 0 + 1 ∧
    (record_assignment a ledger).1.cumulative_regular_days =
      ((latestFor ledger a.person a.group_id).map
        (·.cumulative_regular_days)).getD 0 +
        (if a.day_type = .REGULAR then 1 else 0) ∧
    (record_assignment a ledger).1.cumulative_weighted_days =
      ((latestFor ledger a.person a.group_id).map
        (·.cumulative_weighted_days)).getD 0 +
        get_base_weight defaultWeights a.day_type ∧
    latestFor (record_assignment a ledger).2 a.person a.group_id =
      some (record_assignment a ledger).1 := by
  refine ⟨rfl, rfl, ?_, rfl, ?_⟩
  · simp only [record_assignment]
    split <;> simp
  · simp only [record_assignment, latestFor, List.filter_append]
    simp

/-! ### Helper lemmas about `alookup` -/

theorem alookup_filter_ne {β : Type} (l : List (String × β)) (p : String) :
    alookup (l.filter (fun pc => decide (pc.1 ≠ p))) p = none := by
  induction l with
  | nil => rfl
  | cons hd tl ih =>
    obtain ⟨k, v⟩ := hd
    by_cases h : k = p
    · subst h
      simpa using ih
    · have hcond : (decide (((k, v) : String × β).1 ≠ p)) = true := by simp [h]
      rw [List.filter_cons, if_pos hcond, alookup,
        if_neg (fun hc : p = k => h hc.symm)]
      exact ih

theorem alookup_filter_of_none {β : Type} (l : List (String × β))
    (f : String × β → Bool) (p : String) (h : alookup l p = none) :
    alookup (l.filter f) p = none := by
  induction l with
  | nil => rfl
  | cons hd tl ih =>
    obtain ⟨k, v⟩ := hd
    rw [alookup] at h
    by_cases hpk : p = k
    · simp [hpk] at h
    · rw [if_neg hpk] at h
      by_cases hf : f (k, v)
      · rw [List.filter_cons, if_pos hf, alookup, if_neg hpk]
        exact ih h
      · rw [List.filter_cons, if_neg hf]
        exact ih h

theorem alookup_fold_del_none {β : Type} (members : List String)
    (cs : List (String × β)) (p : String) (h : alookup cs p = none) :
    alookup (members.foldl
      (fun cs q => cs.filter (fun pc => decide (pc.1 ≠ q))) cs) p = none := by
  induction members generalizing cs with
  | nil => exact h
  | cons q rest ih =>
    exact ih _ (alookup_filter_of_none _ _ _ h)

theorem alookup_fold_del {β : Type} (members : List String)
    (cs : List (String × β)) (p : String) (hp : p ∈ members) :
    alookup (members.foldl
      (fun cs q => cs.filter (fun pc => decide (pc.1 ≠ q))) cs) p = none := by
  induction members generalizing cs with
  | nil => cases hp
  | cons q rest ih =>
    rcases List.mem_cons.mp hp with hq | hq
    · subst hq
      exact alookup_fold_del_none rest _ p (alookup_filter_ne cs p)
    · exact ih _ hq

theorem alookup_map_val {β : Type} (l : List (String × β)) (g : String)
    (h : String → β → β) :
    alookup (l.map (fun e => (e.1, h e.1 e.2))) g =
      (alookup l g).map (h g) := by
  induction l with
  | nil => rfl
  | cons hd tl ih =>
    obtain ⟨k, v⟩ := hd
    by_cases hk : g = k
    · subst hk
      rw [List.map_cons, alookup, if_pos rfl, alookup, if_pos rfl,
        Option.map_some']
    · rw [List.map_cons, alookup, if_neg hk, alookup, if_neg hk, ih]

/-- C10: `remove_person_from_group` and `delete_group` delete the person's
constraints entry entirely — `_person_constraints` is keyed by person name
only, not by `(person, group)` — so a successful removal from *one* group
erases the person's min/max constraints everywhere (memberships in other
groups are untouched), and later schedule generations treat the person as
unconstrained (`maxDaysOk` always true, never a catch-up candidate). -/
theorem c10_constraint_deletion_is_global (st : SchedulerState)
    (person group_id : String) (members : List String)
    (h : alookup st.groups group_id = some members) (hp : person ∈ members) :
    (remove_person_from_group st person group_id).2 = true ∧
    alookup (remove_person_from_group st person group_id).1.constraints
      person = none ∧
    (∀ g, g ≠ group_id →
      alookup (remove_person_from_group st person group_id).1.groups g =
        alookup st.groups g) ∧
    (∀ counts,
      maxDaysOk (remove_person_from_group st person group_id).1.constraints
        counts person = true ∧
      minDaysUnmet (remove_person_from_group st person group_id).1.constraints
        counts person = false) ∧
    (delete_group st group_id).2 = true ∧
    (∀ p ∈ members, alookup (delete_group st group_id).1.constraints p = none) := by
  have hr : remove_person_from_group st person group_id =
      ({ groups := st.groups.map
           (fun g => (g.1, if g.1 = group_id then g.2.erase person else g.2))
         constraints := st.constraints.filter (fun pc => decide (pc.1 ≠ person)) },
       true) := by
    simp only [remove_person_from_group, h]
    rw [if_pos hp]
  have hd : delete_group st group_id =
      ({ groups := st.groups.filter (fun g => decide (g.1 ≠ group_id))
         constraints := members.foldl
           (fun cs p => cs.filter (fun pc => decide (pc.1 ≠ p))) st.constraints },
       true) := by
    simp only [delete_group, h]
  refine ⟨by rw [hr], ?_, ?_, ?_, by rw [hd], ?_⟩
  · rw [hr]
    exact alookup_filter_ne st.constraints person
  · intro g hg
    rw [hr]
    rw [alookup_map_val st.groups g
      (fun k v => if k = group_id then v.erase person else v)]
    cases alookup st.groups g with
    | none => rfl
    | some v => rw [Option.map_some', if_neg hg]
  · intro counts
    have hnone : alookup (remove_person_from_group st person group_id).1.constraints
        person = none := by
      rw [hr]
      exact alookup_filter_ne st.constraints person
    constructor
    · rw [maxDaysOk, hnone]
    · rw [minDaysUnmet, hnone]
  · intro p hpm
    rw [hd]
    exact alookup_fold_del members st.constraints p hpm

/-- Witness for C10: person `P` belongs to both `g1` and `g2` with a
min/max constraint; removing `P` from `g1` erases the constraint (globally)
while `P` is still a member of `g2`. -/
theorem c10_constraint_deletion_is_global_witness :
    alookup ([("g1", ["P", "Q"]), ("g2", ["P", "R"])] : Groups) "g1"
      = some ["P", "Q"] ∧
    "P" ∈ ["P", "Q"] ∧
    (remove_person_from_group
      ⟨[("g1", ["P", "Q"]), ("g2", ["P", "R"])],
       [("P", ⟨some 1, some 5⟩), ("R", ⟨none, some 2⟩)]⟩ "P" "g1").2 = true ∧
    alookup (remove_person_from_group
      ⟨[("g1", ["P", "Q"]), ("g2", ["P", "R"])],
       [("P", ⟨some 1, some 5⟩), ("R", ⟨none, some 2⟩)]⟩ "P" "g1").1.constraints
      "P" = none ∧
    alookup (remove_person_from_group
      ⟨[("g1", ["P", "Q"]), ("g2", ["P", "R"])],
       [("P", ⟨some 1, some 5⟩), ("R", ⟨none, some 2⟩)]⟩ "P" "g1").1.groups
      "g2" = some ["P", "R"] := by
  have h := c10_constraint_deletion_is_global
    ⟨[("g1", ["P", "Q"]), ("g2", ["P", "R"])],
     [("P", ⟨some 1, some 5⟩), ("R", ⟨none, some 2⟩)]⟩ "P" "g1" ["P", "Q"]
    (by decide) (by decide)
  refine ⟨by decide, by decide, h.1, h.2.1, ?_⟩
  rw [h.2.2.1 "g2" (by decide)]
  decide

/-- C6: `generate_monthly_schedule` fails with a precondition error exactly
when there are no groups, some group has no members, or some group has
fewer members than the configured minimum (default 2); and a precondition
error is raised before any day is scheduled — the ledger is returned
untouched (no record appended) and no schedule exists. -/
theorem c6_precondition_errors (y m : Nat) (holidays : List Holiday)
    (groups : Groups) (constraints : ConstraintMap) (ledger0 : List AHRecord) :
    (isPrecondError
        (generate_monthly_schedule y m holidays groups constraints ledger0).2.2
          = true ↔
      (groups = [] ∨ (∃ g ∈ groups, g.2 = []) ∨
        (∃ g ∈ groups, g.2.length < min_group_members))) ∧
    (isPrecondError
        (generate_monthly_schedule y m holidays groups constraints ledger0).2.2
          = true →
      (generate_monthly_schedule y m holidays groups constraints ledger0).1
        = ledger0) := by
  by_cases hg : groups.isEmpty
  · constructor
    · simp only [generate_monthly_schedule, if_pos hg, isPrecondError]
      simp [List.isEmpty_iff.mp hg]
    · intro _
      simp only [generate_monthly_schedule, if_pos hg]
  · by_cases he : ((groups.filter (fun g => g.2.isEmpty)).map (·.1)).isEmpty
    · have hne : ∀ g ∈ groups, g.2 ≠ [] := by
        intro g hgm hnil
        have hfe : groups.filter (fun g => g.2.isEmpty) = [] := by
          rcases List.map_eq_nil_iff.mp (List.isEmpty_iff.mp he) with hf
          exact hf
        have := List.filter_eq_nil_iff.mp hfe g hgm
        simp [hnil] at this
      cases hf : groups.find? (fun g => decide (g.2.length < min_group_members)) with
      | some gg =>
        have hres : generate_monthly_schedule y m holidays groups constraints ledger0
            = (ledger0, [], .error (.insufficient_members gg.1)) := by
          simp only [generate_monthly_schedule, if_neg hg, if_neg (not_not_intro he), hf]
        constructor
        · rw [hres]
          simp only [isPrecondError, true_iff]
          refine Or.inr (Or.inr ⟨gg, List.mem_of_find?_eq_some hf, ?_⟩)
          have := List.find?_some hf
          exact of_decide_eq_true this
        · intro _
          rw [hres]
      | none =>
        have hbig : ∀ g ∈ groups, ¬ g.2.length < min_group_members := by
          intro g hgm
          have := List.find?_eq_none.mp hf g hgm
          simpa using this
        have hfalse : isPrecondError
            (generate_monthly_schedule y m holidays groups constraints
              ledger0).2.2 = false := by
          simp only [generate_monthly_schedule, if_neg hg, if_neg (not_not_intro he), hf]
          split
          · rfl
          · split
            · rfl
            · rfl
        constructor
        · rw [hfalse]
          simp only [Bool.false_eq_true, false_iff]
          push_neg
          refine ⟨fun hc => hg (by simp [hc]), ?_, ?_⟩
          · intro g hgm
            exact hne g hgm
          · intro g hgm
            exact Nat.le_of_not_lt (hbig g hgm)
        · intro hcontra
          rw [hfalse] at hcontra
          simp at hcontra
    · have hres : generate_monthly_schedule y m holidays groups constraints ledger0
          = (ledger0, [], .error (.insufficient_members_empty
              ((groups.filter (fun g => g.2.isEmpty)).map (·.1)))) := by
        simp only [generate_monthly_schedule, if_neg hg]
        rw [if_pos he]
      constructor
      · rw [hres]
        simp only [isPrecondError, true_iff]
        refine Or.inr (Or.inl ?_)
        have hnn : ((groups.filter (fun g => g.2.isEmpty)).map (·.1)) ≠ [] := by
          simpa [List.isEmpty_iff] using he
        rcases List.exists_mem_of_ne_nil _ hnn with ⟨x, hx⟩
        rcases List.mem_map.mp hx with ⟨g, hgf, _⟩
        rcases List.mem_filter.mp hgf with ⟨hgm, hgE⟩
        exact ⟨g, hgm, List.isEmpty_iff.mp hgE⟩
      · intro _
        rw [hres]

/-- Witness for C6: a non-degenerate configuration (one group, two members)
raises no precondition error, and the configuration with no groups does. -/
theorem c6_precondition_errors_witness :
    (¬ isPrecondError
      (generate_monthly_schedule 2024 1 [] [("g1", ["A", "B"])] [] []).2.2
        = true) ∧
    isPrecondError
      (generate_monthly_schedule 2024 1 [] [] [] []).2.2 = true := by
  constructor
  · intro hc
    have h := (c6_precondition_errors 2024 1 [] [("g1", ["A", "B"])] [] []).1.mp hc
    rcases h with h | ⟨g, hgm, hg⟩ | ⟨g, hgm, hg⟩
    · cases h
    · simp at hgm
      rw [hgm] at hg
      cases hg
    · simp at hgm
      rw [hgm] at hg
      simp [min_group_members] at hg
  · exact (c6_precondition_errors 2024 1 [] [] [] []).1.mpr (Or.inl rfl)

/-! ### Infrastructure lemmas about the rotation-engine run -/

theorem minByKey_foldl_mem (key : String → Nat) :
    ∀ (xs : List String) (x : String),
      xs.foldl (fun best q => if key q < key best then q else best) x ∈ x :: xs := by
  intro xs
  induction xs with
  | nil => intro x; exact List.mem_cons_self x []
  | cons y ys ih =>
    intro x
    rw [List.foldl_cons]
    rcases List.mem_cons.mp (ih (if key y < key x then y else x)) with h | h
    · rw [h]
      by_cases hk : key y < key x
      · rw [if_pos hk]
        exact List.mem_cons_of_mem _ (List.mem_cons_self y ys)
      · rw [if_neg hk]
        exact List.mem_cons_self x (y :: ys)
    · exact List.mem_cons_of_mem _ (List.mem_cons_of_mem _ h)

theorem minByKey_mem {key : String → Nat} {l : List String} {p : String}
    (h : minByKey key l = some p) : p ∈ l := by
  cases l with
  | nil => cases h
  | cons x xs =>
    rw [minByKey] at h
    injection h with h
    rw [← h]
    exact minByKey_foldl_mem key xs x

theorem select_person_mem {constraints : ConstraintMap}
    {eligible_members : List String} {last counts : List (String × Nat)}
    {p : String}
    (h : select_person constraints eligible_members last counts = some p) :
    p ∈ eligible_members := by
  rw [select_person] at h
  by_cases hc : (eligible_members.filter (minDaysUnmet constraints counts)).isEmpty
  · rw [if_pos hc] at h
    split at h
    · next q rest heq =>
      injection h with h
      rw [← h]
      exact List.mem_of_mem_filter (heq ▸ List.mem_cons_self q rest)
    · exact minByKey_mem h
  · rw [if_neg hc] at h
    split at h
    · next q rest heq =>
      injection h with h
      rw [← h]
      exact List.mem_of_mem_filter
        (List.mem_of_mem_filter (heq ▸ List.mem_cons_self q rest))
    · exact List.mem_of_mem_filter (minByKey_mem h)

/-- Elimination principle for a successful `process_group` step. -/
theorem process_group_some {constraints : ConstraintMap}
    {holidays : List Holiday} {d : Date} {st : RunState}
    {group_id : String} {members : List String} {chosen : String} {fb : Bool}
    {st' : RunState}
    (h : process_group constraints holidays d st group_id members
      = some (chosen, fb, st')) :
    select_person constraints
      (if (eligibleMembers constraints st.last_scheduled st.assignments_count
            (d.ord - 1) members).isEmpty
       then members
       else eligibleMembers constraints st.last_scheduled st.assignments_count
        (d.ord - 1) members)
      st.last_scheduled st.assignments_count = some chosen ∧
    fb = (eligibleMembers constraints st.last_scheduled st.assignments_count
      (d.ord - 1) members).isEmpty ∧
    st'.last_scheduled = (chosen, d.ord) :: st.last_scheduled ∧
    st'.assignments_count =
      (chosen, (alookup st.assignments_count chosen).getD 0 + 1)
        :: st.assignments_count ∧
    st'.ledger = st.ledger ++
      [(record_assignment
        ⟨chosen, group_id, d, get_day_type_listArg d holidays,
          calculate_weight defaultWeights d
            (some (get_day_type_listArg d holidays))⟩ st.ledger).1] := by
  rw [process_group] at h
  split at h
  · cases h
  · next ch hsel =>
    injection h with h
    injection h with h1 h
    injection h with h2 h3
    subst h1
    rw [← h3]
    refine ⟨hsel, h2.symm, rfl, rfl, rfl⟩

theorem process_group_chosen_mem {constraints : ConstraintMap}
    {holidays : List Holiday} {d : Date} {st : RunState}
    {group_id : String} {members : List String} {chosen : String} {fb : Bool}
    {st' : RunState}
    (h : process_group constraints holidays d st group_id members
      = some (chosen, fb, st')) : chosen ∈ members := by
  obtain ⟨hsel, -, -⟩ := process_group_some h
  split at hsel
  · exact select_person_mem hsel
  · exact List.mem_of_mem_filter (select_person_mem hsel)

theorem process_groups_ledger_grows {constraints : ConstraintMap}
    {holidays : List Holiday} {d : Date} :
    ∀ {gs : Groups} {st : RunState} {ds : List (String × String)}
      {fbs : List String} {st' : RunState},
      process_groups constraints holidays d gs st = some (ds, fbs, st') →
      st.ledger <+: st'.ledger := by
  intro gs
  induction gs with
  | nil =>
    intro st ds fbs st' h
    rw [process_groups] at h
    injection h with h
    injection h with h1 h
    injection h with h2 h3
    rw [← h3]
  | cons g rest ih =>
    intro st ds fbs st' h
    obtain ⟨gid, members⟩ := g
    rw [process_groups] at h
    split at h
    · cases h
    · next ch fb st1 hpg =>
      split at h
      · cases h
      · next sch fbs2 st2 hrest =>
        injection h with h
        injection h with h1 h
        injection h with h2 h3
        obtain ⟨-, -, -, -, hled⟩ := process_group_some hpg
        refine List.IsPrefix.trans ?_ (h3 ▸ ih hrest)
        rw [hled]
        exact List.prefix_append st.ledger _

theorem run_days_ledger_grows {constraints : ConstraintMap}
    {holidays : List Holiday} {groups : Groups} {y m : Nat} :
    ∀ {days : List Nat} {st : RunState}
      {sch : List (Nat × List (String × String))} {fbl : List (Nat × String)}
      {st' : RunState},
      run_days constraints holidays groups y m days st = some (sch, fbl, st') →
      st.ledger <+: st'.ledger := by
  intro days
  induction days with
  | nil =>
    intro st sch fbl st' h
    rw [run_days] at h
    injection h with h
    injection h with h1 h
    injection h with h2 h3
    rw [← h3]
  | cons day rest ih =>
    intro st sch fbl st' h
    rw [run_days] at h
    split at h
    · cases h
    · next ds fbs st1 hpg =>
      split at h
      · cases h
      · next sch2 fbl2 st2 hrest =>
        injection h with h
        injection h with h1 h
        injection h with h2 h3
        exact List.IsPrefix.trans (process_groups_ledger_grows hpg)
          (h3 ▸ ih hrest)

/-- Characterization of a hit of the post-run minimum-days check. -/
theorem check_min_days_spec {constraints : ConstraintMap}
    {counts : List (String × Nat)} {p : String} {req act : Nat}
    (h : check_min_days constraints counts = some (p, req, act)) :
    ∃ c, (p, c) ∈ constraints ∧ c.min_days = some req ∧
      act = (alookup counts p).getD 0 ∧ act < req := by
  obtain ⟨⟨p', c⟩, hmem, hf⟩ := List.exists_of_findSome?_eq_some h
  have hf' : (match c.min_days with
      | none => none
      | some mn =>
        if (alookup counts p').getD 0 < mn then
          some (p', mn, (alookup counts p').getD 0)
        else none) = some (p, req, act) := hf
  split at hf'
  · cases hf'
  · next mn hmn =>
    split at hf'
    · next hlt =>
      injection hf' with hf'
      injection hf' with h1 hf'
      injection hf' with h2 h3
      subst h1
      subst h2
      subst h3
      exact ⟨c, hmem, hmn, rfl, hlt⟩
    · cases hf'

/-- The post-run minimum-days check passes exactly when every constrained
person reached their minimum. -/
theorem check_min_days_none {constraints : ConstraintMap}
    {counts : List (String × Nat)}
    (h : check_min_days constraints counts = none) :
    ∀ p c mn, (p, c) ∈ constraints → c.min_days = some mn →
      mn ≤ (alookup counts p).getD 0 := by
  intro p c mn hmem hmn
  have hf : (match c.min_days with
      | none => none
      | some mn =>
        if (alookup counts p).getD 0 < mn then
          some (p, mn, (alookup counts p).getD 0)
        else none) = (none : Option (String × Nat × Nat)) :=
    List.findSome?_eq_none_iff.mp h (p, c) hmem
  split at hf
  · next hmn2 =>
    rw [hmn] at hmn2
    cases hmn2
  · next mn2 hmn2 =>
    split at hf
    · cases hf
    · next hlt =>
      have hmm : some mn2 = some mn := hmn2.symm.trans hmn
      injection hmm with hmm
      rw [← hmm]
      exact Nat.le_of_not_lt hlt

/-- The shape of a `generate_monthly_schedule` result once the three
preconditions have passed. -/
theorem generate_eq_run (y m : Nat) (holidays : List Holiday)
    (groups : Groups) (constraints : ConstraintMap) (ledger0 : List AHRecord)
    (hg : ¬ groups.isEmpty = true)
    (he : ((groups.filter (fun g => g.2.isEmpty)).map (·.1)).isEmpty = true)
    (hf : groups.find? (fun g => decide (g.2.length < min_group_members))
      = none) :
    generate_monthly_schedule y m holidays groups constraints ledger0 =
      match run_days constraints holidays groups y m
        (List.range' 1 (daysInMonth y m)) ⟨[], [], ledger0⟩ with
      | none => (ledger0, [], .error .runtime_error)
      | some (sch, fbl, st) =>
        match check_min_days constraints st.assignments_count with
        | some (p, req, act) =>
          (st.ledger, fbl, .error (.invalid_schedule_unmet_min p req act))
        | none => (st.ledger, fbl, .ok sch) := by
  rw [generate_monthly_schedule, if_neg hg, if_neg (not_not_intro he), hf]

/-- C7: after all days are scheduled, `generate_monthly_schedule` raises the
unmet-minimum-days error exactly for the first constrained person whose
final assignment count fell short — the error names the person, the
required count and the actual count — and the ledger it returns is the
fully extended ledger of the run: the records appended day by day are *not*
rolled back.  On success every constrained person reached their minimum. -/
theorem c7_unmet_min_days (y m : Nat) (holidays : List Holiday)
    (groups : Groups) (constraints : ConstraintMap) (ledger0 : List AHRecord) :
    (∀ p req act,
      (generate_monthly_schedule y m holidays groups constraints
        ledger0).2.2 = .error (.invalid_schedule_unmet_min p req act) →
      ∃ sch fbl st,
        run_days constraints holidays groups y m
          (List.range' 1 (daysInMonth y m)) ⟨[], [], ledger0⟩
          = some (sch, fbl, st) ∧
        (∃ c, (p, c) ∈ constraints ∧ c.min_days = some req) ∧
        act = (alookup st.assignments_count p).getD 0 ∧
        act < req ∧
        (generate_monthly_schedule y m holidays groups constraints
          ledger0).1 = st.ledger ∧
        ledger0 <+: st.ledger) ∧
    (∀ sch,
      (generate_monthly_schedule y m holidays groups constraints
        ledger0).2.2 = .ok sch →
      ∃ fbl st,
        run_days constraints holidays groups y m
          (List.range' 1 (daysInMonth y m)) ⟨[], [], ledger0⟩
          = some (sch, fbl, st) ∧
        ∀ p c mn, (p, c) ∈ constraints → c.min_days = some mn →
          mn ≤ (alookup st.assignments_count p).getD 0) := by
  by_cases hg : groups.isEmpty
  · constructor
    · intro p req act h
      rw [generate_monthly_schedule, if_pos hg] at h
      simp at h
    · intro sch h
      rw [generate_monthly_schedule, if_pos hg] at h
      simp at h
  · by_cases he : ((groups.filter (fun g => g.2.isEmpty)).map (·.1)).isEmpty
    · cases hf : groups.find?
          (fun g => decide (g.2.length < min_group_members)) with
      | some gg =>
        constructor
        · intro p req act h
          rw [generate_monthly_schedule, if_neg hg,
            if_neg (not_not_intro he), hf] at h
          simp at h
        · intro sch h
          rw [generate_monthly_schedule, if_neg hg,
            if_neg (not_not_intro he), hf] at h
          simp at h
      | none =>
        have hgen := generate_eq_run y m holidays groups constraints ledger0
          hg he hf
        constructor
        · intro p req act h
          rw [hgen] at h
          split at h
          · simp at h
          · next sch0 fbl0 st0 hrun =>
            split at h
            · next p0 req0 act0 hc =>
              simp only [Except.error.injEq,
                SchedError.invalid_schedule_unmet_min.injEq] at h
              obtain ⟨h1, h2, h3⟩ := h
              subst h1
              subst h2
              subst h3
              obtain ⟨c, hmem, hmn, hact, hlt⟩ := check_min_days_spec hc
              refine ⟨sch0, fbl0, st0, hrun, ⟨c, hmem, hmn⟩, hact, hlt, ?_, ?_⟩
              · rw [hgen]
                simp [hrun, hc]
              · have hled0 : RunState.ledger ⟨[], [], ledger0⟩ = ledger0 := rfl
                exact hled0 ▸ run_days_ledger_grows hrun
            · simp at h
        · intro sch h
          rw [hgen] at h
          split at h
          · simp at h
          · next sch0 fbl0 st0 hrun =>
            split at h
            · next p0 req0 act0 hc =>
              simp at h
            · next hc =>
              simp only [Except.ok.injEq] at h
              subst h
              exact ⟨fbl0, st0, hrun, check_min_days_none hc⟩
    · constructor
      · intro p req act h
        rw [generate_monthly_schedule, if_neg hg, if_pos he] at h
        simp at h
      · intro sch h
        rw [generate_monthly_schedule, if_neg hg, if_pos he] at h
        simp at h

/-- Witness for C7: with members `[A, B]` alternating over January 2024,
`A` is scheduled 16 times; a `min_days = 40` constraint on `A` makes the run
fail with the error naming `A`, 40 and 16, and the run's ledger survives. -/
theorem c7_unmet_min_days_witness :
    ∃ sch fbl st,
      run_days [("A", ⟨some 40, none⟩)] [] [("g1", ["A", "B"])] 2024 1
        (List.range' 1 (daysInMonth 2024 1)) ⟨[], [], []⟩
        = some (sch, fbl, st) ∧
      (∃ c, ("A", c) ∈ ([("A", ⟨some 40, none⟩)] : ConstraintMap) ∧
        c.min_days = some 40) ∧
      16 = (alookup st.assignments_count "A").getD 0 ∧
      16 < 40 ∧
      (generate_monthly_schedule 2024 1 [] [("g1", ["A", "B"])]
        [("A", ⟨some 40, none⟩)] []).1 = st.ledger ∧
      [] <+: st.ledger :=
  (c7_unmet_min_days 2024 1 [] [("g1", ["A", "B"])]
    [("A", ⟨some 40, none⟩)] []).1 "A" 40 16 (by decide)

/-! ### `min(…, key=…)` versus "first element with minimal key" -/

theorem pymin_first_min (key : String → Nat) :
    ∀ (xs : List String) (x m : String),
      m = xs.foldl (fun best q => if key q < key best then q else best) x →
      ∃ l1 l2, x :: xs = l1 ++ m :: l2 ∧ (∀ q ∈ l1, key m < key q) ∧
        ∀ q ∈ x :: xs, key m ≤ key q := by
  intro xs
  induction xs with
  | nil =>
    intro x m hm
    subst hm
    exact ⟨[], [], rfl, by simp, by simp⟩
  | cons y ys ih =>
    intro x m hm
    rw [List.foldl_cons] at hm
    by_cases hk : key y < key x
    · rw [if_pos hk] at hm
      obtain ⟨l1, l2, hdec, hstrict, hbound⟩ := ih y m hm
      refine ⟨x :: l1, l2, by rw [List.cons_append, ← hdec], ?_, ?_⟩
      · intro q hq
        rcases List.mem_cons.mp hq with hq | hq
        · subst hq
          exact Nat.lt_of_le_of_lt (hbound y (List.mem_cons_self y ys)) hk
        · exact hstrict q hq
      · intro q hq
        rcases List.mem_cons.mp hq with hq | hq
        · subst hq
          exact Nat.le_of_lt
            (Nat.lt_of_le_of_lt (hbound y (List.mem_cons_self y ys)) hk)
        · exact hbound q hq
    · rw [if_neg hk] at hm
      obtain ⟨l1, l2, hdec, hstrict, hbound⟩ := ih x m hm
      cases l1 with
      | nil =>
        rw [List.nil_append] at hdec
        injection hdec with h1 h2
        refine ⟨[], y :: ys, by rw [List.nil_append, h1], by simp, ?_⟩
        intro q hq
        rcases List.mem_cons.mp hq with hq | hq
        · subst hq
          rw [← h1]
        · rcases List.mem_cons.mp hq with hq2 | hq2
          · subst hq2
            rw [← h1]
            exact Nat.le_of_not_lt hk
          · exact hbound q (List.mem_cons_of_mem x (h2 ▸ hq2 : q ∈ ys))
      | cons a t =>
        rw [List.cons_append] at hdec
        injection hdec with h1 h2
        have hmx : key m < key x :=
          h1 ▸ hstrict a (List.mem_cons_self a t)
        refine ⟨x :: y :: t, l2, ?_, ?_, ?_⟩
        · rw [List.cons_append, List.cons_append, ← h2]
        · intro q hq
          rcases List.mem_cons.mp hq with hq | hq
          · subst hq
            exact hmx
          · rcases List.mem_cons.mp hq with hq2 | hq2
            · subst hq2
              exact Nat.lt_of_lt_of_le hmx (Nat.le_of_not_lt hk)
            · exact hstrict q (List.mem_cons_of_mem a hq2)
        · intro q hq
          rcases List.mem_cons.mp hq with hq | hq
          · subst hq
            exact Nat.le_of_lt hmx
          · rcases List.mem_cons.mp hq with hq2 | hq2
            · subst hq2
              exact Nat.le_of_lt
                (Nat.lt_of_lt_of_le hmx (Nat.le_of_not_lt hk))
            · exact hbound q (List.mem_cons_of_mem x (h2 ▸ hq2))

theorem find_decomp {α : Type} (pred : α → Bool) :
    ∀ (l : List α) (m : α), l.find? pred = some m →
      ∃ l1 l2, l = l1 ++ m :: l2 ∧ (∀ q ∈ l1, pred q = false) ∧
        pred m = true := by
  intro l
  induction l with
  | nil => intro m h; cases h
  | cons a tl ih =>
    intro m h
    by_cases hp : pred a
    · rw [List.find?_cons_of_pos _ hp] at h
      injection h with h
      subst h
      exact ⟨[], tl, rfl, by simp, hp⟩
    · rw [List.find?_cons_of_neg _ (by simpa using hp)] at h
      obtain ⟨l1, l2, hdec, hfail, hm⟩ := ih m h
      refine ⟨a :: l1, l2, by rw [List.cons_append, hdec], ?_, hm⟩
      intro q hq
      rcases List.mem_cons.mp hq with hq | hq
      · subst hq
        simpa using hp
      · exact hfail q hq

theorem firstMinBy_first_min (key : String → Nat) (l : List String)
    (m : String) (h : firstMinBy key l = some m) :
    ∃ l1 l2, l = l1 ++ m :: l2 ∧ (∀ q ∈ l1, key m < key q) ∧
      ∀ q ∈ l, key m ≤ key q := by
  obtain ⟨l1, l2, hdec, hfail, hm⟩ := find_decomp _ l m h
  have hbound : ∀ q ∈ l, key m ≤ key q := by
    intro q hq
    have := List.all_eq_true.mp hm q hq
    exact of_decide_eq_true this
  refine ⟨l1, l2, hdec, ?_, hbound⟩
  intro q hq
  have hqmem : q ∈ l := by
    rw [hdec]
    exact List.mem_append_left _ hq
  have hfq := hfail q hq
  have : ¬ ∀ r ∈ l, key q ≤ key r := by
    intro hall
    rw [List.all_eq_true.mpr (fun r hr => decide_eq_true (hall r hr))] at hfq
    cases hfq
  push_neg at this
  obtain ⟨r, hr, hrq⟩ := this
  exact Nat.lt_of_le_of_lt (hbound r hr) hrq

theorem first_min_unique (key : String → Nat) :
    ∀ (l1 : List String) (l l1' l2 l2' : List String) (m m' : String),
      l = l1 ++ m :: l2 → l = l1' ++ m' :: l2' →
      (∀ q ∈ l1, key m < key q) → (∀ q ∈ l, key m ≤ key q) →
      (∀ q ∈ l1', key m' < key q) → (∀ q ∈ l, key m' ≤ key q) →
      m = m' := by
  intro l1
  induction l1 with
  | nil =>
    intro l l1' l2 l2' m m' hdec hdec' hstrict hbound hstrict' hbound'
    cases l1' with
    | nil =>
      rw [List.nil_append] at hdec hdec'
      rw [hdec] at hdec'
      injection hdec' with h1 h2
    | cons a t' =>
      exfalso
      rw [List.nil_append] at hdec
      rw [List.cons_append] at hdec'
      rw [hdec] at hdec'
      injection hdec' with h1 h2
      have hma : key m' < key m := h1 ▸ hstrict' a (List.mem_cons_self a t')
      have hmm : key m ≤ key m' := by
        refine hbound m' ?_
        rw [hdec, h2]
        exact List.mem_cons_of_mem _
          (List.mem_append_right _ (List.mem_cons_self m' l2'))
      exact Nat.lt_irrefl _ (Nat.lt_of_le_of_lt hmm hma)
  | cons a t ih =>
    intro l l1' l2 l2' m m' hdec hdec' hstrict hbound hstrict' hbound'
    cases l1' with
    | nil =>
      exfalso
      rw [List.nil_append] at hdec'
      rw [List.cons_append] at hdec
      rw [hdec'] at hdec
      injection hdec with h1 h2
      have hma : key m < key m' := h1 ▸ hstrict a (List.mem_cons_self a t)
      have hmm : key m' ≤ key m := by
        refine hbound' m ?_
        rw [hdec', h2]
        exact List.mem_cons_of_mem _
          (List.mem_append_right _ (List.mem_cons_self m l2))
      exact Nat.lt_irrefl _ (Nat.lt_of_le_of_lt hmm hma)
    | cons a' t' =>
      rw [List.cons_append] at hdec hdec'
      cases l with
      | nil => cases hdec
      | cons b l0 =>
        injection hdec with hb1 hb2
        injection hdec' with hb1' hb2'
        refine ih l0 t' l2 l2' m m' hb2 hb2'
          (fun q hq => hstrict q (List.mem_cons_of_mem a hq))
          (fun q hq => hbound q (List.mem_cons_of_mem b hq))
          (fun q hq => hstrict' q (List.mem_cons_of_mem a' hq))
          (fun q hq => hbound' q (List.mem_cons_of_mem b hq))

theorem minByKey_eq_firstMinBy (key : String → Nat) (l : List String) :
    minByKey key l = firstMinBy key l := by
  cases l with
  | nil => rfl
  | cons x xs =>
    obtain ⟨l1, l2, hdec, hstrict, hbound⟩ := pymin_first_min key xs x _ rfl
    cases hfind : firstMinBy key (x :: xs) with
    | none =>
      exfalso
      have hmem : (xs.foldl (fun best q => if key q < key best then q else best) x)
          ∈ x :: xs := by
        rw [hdec]
        exact List.mem_append_right _ (List.mem_cons_self _ _)
      have := List.find?_eq_none.mp hfind _ hmem
      rw [List.all_eq_true.mpr (fun r hr => decide_eq_true (hbound r hr))] at this
      exact this rfl
    | some mm =>
      obtain ⟨l1', l2', hdec', hstrict', hbound'⟩ :=
        firstMinBy_first_min key _ mm hfind
      rw [minByKey]
      exact congrArg some (first_min_unique key l1 (x :: xs) l1' l2 l2' _ mm
        hdec hdec' hstrict hbound hstrict' hbound')

theorem filter_head_find {α : Type} (pred : α → Bool) (l : List α) :
    l.find? pred = (l.filter pred).head? := by
  induction l with
  | nil => rfl
  | cons a tl ih =>
    by_cases hp : pred a
    · rw [List.find?_cons_of_pos _ hp, List.filter_cons_of_pos hp]
      rfl
    · rw [List.find?_cons_of_neg _ (by simpa using hp),
        List.filter_cons_of_neg (by simpa using hp)]
      exact ih

/-- C4: `_select_person` implements exactly the two-tier policy the spec
words describe (`spec_select_person`): catch-up candidates (unmet
`min_days`) take priority; within the chosen pool the first
never-yet-assigned member wins, else the first member (in stable list
order) with the oldest last-assigned date.  The tie-break falls out of
CPython's `min`, which keeps the first of several minimal elements. -/
theorem c4_select_person_policy (constraints : ConstraintMap)
    (eligible_members : List String) (last counts : List (String × Nat)) :
    select_person constraints eligible_members last counts =
      spec_select_person constraints eligible_members last counts := by
  simp only [select_person, spec_select_person]
  by_cases hc : (eligible_members.filter (minDaysUnmet constraints counts)).isEmpty
  · rw [if_pos hc, if_pos hc,
      filter_head_find (fun p => (alookup last p).isNone) eligible_members]
    cases hn : eligible_members.filter (fun p => (alookup last p).isNone) with
    | nil => exact minByKey_eq_firstMinBy _ _
    | cons p rest => rfl
  · rw [if_neg hc, if_neg hc,
      filter_head_find (fun p => (alookup last p).isNone)
        (eligible_members.filter (minDaysUnmet constraints counts))]
    cases hn : (eligible_members.filter (minDaysUnmet constraints counts)).filter
        (fun p => (alookup last p).isNone) with
    | nil => exact minByKey_eq_firstMinBy _ _
    | cons p rest => rfl

/-- C9: `get_fairness_metrics` returns all zeros when the group has no
recorded assignments, and otherwise the population standard deviation of
the distinct persons' total weighted scores together with the
max-minus-min of the weighted scores and of the total assignment counts;
on the example ledger with weighted scores `[3.5, 1.0]` it returns
`weighted_std_dev = 1.25`, `max_weighted_diff = 2.5`,
`max_total_diff = 1`. -/
theorem c9_fairness_metrics (ledger : List AHRecord) (group_id : String) :
    (ledger.filter (fun r => r.group_id = group_id) = [] →
      get_fairness_metrics ledger group_id = ⟨0, 0, 0⟩) ∧
    (get_group_stats ledger group_id ≠ [] →
      (get_fairness_metrics ledger group_id).weighted_std_dev =
        Real.sqrt ((popVariance ((get_group_stats ledger group_id).map
          (·.2.total_weighted_score)) : ℚ) : ℝ) ∧
      (get_fairness_metrics ledger group_id).max_weighted_diff =
        listMax ((get_group_stats ledger group_id).map
            (·.2.total_weighted_score)) -
          listMin ((get_group_stats ledger group_id).map
            (·.2.total_weighted_score)) ∧
      (get_fairness_metrics ledger group_id).max_total_diff =
        listMaxN ((get_group_stats ledger group_id).map
            (·.2.total_assignments)) -
          listMinN ((get_group_stats ledger group_id).map
            (·.2.total_assignments))) ∧
    get_fairness_metrics exampleLedger "group1" = ⟨5 / 4, 5 / 2, 1⟩ := by
  refine ⟨?_, ?_, ?_⟩
  · intro h
    have hstats : get_group_stats ledger group_id = [] := by
      simp [get_group_stats, h,
        show List.eraseDups ([] : List String) = [] from rfl]
    unfold get_fairness_metrics
    rw [hstats]
    rfl
  · intro h
    unfold get_fairness_metrics
    rw [if_neg (by simpa [List.isEmpty_iff] using h :
      ¬ (get_group_stats ledger group_id).isEmpty = true)]
    exact ⟨rfl, rfl, rfl⟩
  · show (⟨Real.sqrt (((exampleScores.map
        (fun x => (x - exampleScores.sum / (exampleScores.length : ℚ)) ^ 2)).sum /
          (exampleScores.length : ℚ) : ℚ) : ℝ),
      listMax exampleScores - listMin exampleScores,
      listMaxN [2, 1] - listMinN [2, 1]⟩ : FairnessOut) = ⟨5 / 4, 5 / 2, 1⟩
    rw [FairnessOut.mk.injEq]
    refine ⟨?_, by norm_num [exampleScores, listMax, listMin],
      by norm_num [listMaxN, listMinN]⟩
    have hv : ((exampleScores.map
        (fun x => (x - exampleScores.sum / (exampleScores.length : ℚ)) ^ 2)).sum /
          (exampleScores.length : ℚ) : ℚ) = 25 / 16 := by
      norm_num [exampleScores]
    rw [hv]
    rw [show ((25 / 16 : ℚ) : ℝ) = (5 / 4 : ℝ) ^ 2 by push_cast; norm_num]
    rw [Real.sqrt_sq (by norm_num : (0 : ℝ) ≤ 5 / 4)]

/-- Witness for C9: zeros on an empty ledger, and the non-degenerate
conjuncts instantiated on the example ledger. -/
theorem c9_fairness_metrics_witness :
    get_fairness_metrics [] "group1" = ⟨0, 0, 0⟩ ∧
    (get_fairness_metrics exampleLedger "group1").max_weighted_diff =
      listMax ((get_group_stats exampleLedger "group1").map
          (·.2.total_weighted_score)) -
        listMin ((get_group_stats exampleLedger "group1").map
          (·.2.total_weighted_score)) :=
  ⟨(c9_fairness_metrics [] "group1").1 rfl,
   ((c9_fairness_metrics exampleLedger "group1").2.1 (by decide)).2.1⟩


/-! ### The no-consecutive-assignment analysis (C5) -/

theorem alookup_cons {α β : Type} [DecidableEq α] (k : α) (v : β)
    (l : List (α × β)) (a : α) :
    alookup ((k, v) :: l) a = if a = k then some v else alookup l a := rfl

theorem alookup_mem_keys {α β : Type} [DecidableEq α] :
    ∀ (l : List (α × β)) (k : α) (v : β),
      alookup l k = some v → k ∈ l.map Prod.fst := by
  intro l
  induction l with
  | nil => intro k v h; cases h
  | cons hd tl ih =>
    intro k v h
    obtain ⟨k0, v0⟩ := hd
    rw [alookup] at h
    by_cases hk : k = k0
    · rw [List.map_cons]
      exact hk ▸ List.mem_cons_self _ _
    · rw [if_neg hk] at h
      exact List.mem_cons_of_mem _ (ih k v h)

theorem eligB_false_of_yesterday (constraints : ConstraintMap)
    (last counts : List (String × Nat)) (yesterday : Nat) (p : String)
    (h : alookup last p = some yesterday) :
    eligB constraints last counts yesterday p = false := by
  rw [eligB, h]
  simp

theorem process_group_no_repeat {constraints : ConstraintMap}
    {holidays : List Holiday} {d : Date} {st : RunState}
    {group_id : String} {members : List String} {chosen : String} {fb : Bool}
    {st' : RunState}
    (h : process_group constraints holidays d st group_id members
      = some (chosen, fb, st'))
    (hlast : alookup st.last_scheduled chosen = some (d.ord - 1)) :
    fb = true := by
  obtain ⟨hsel, hfb, -, -, -⟩ := process_group_some h
  by_contra hfbne
  have hfbf : fb = false := by
    cases fb
    · rfl
    · exact absurd rfl hfbne
  rw [hfbf] at hfb
  rw [if_neg (by rw [← hfb]; simp)] at hsel
  have hmem := select_person_mem hsel
  have := (List.mem_filter.mp hmem).2
  rw [eligB_false_of_yesterday constraints st.last_scheduled
    st.assignments_count (d.ord - 1) chosen hlast] at this
  cases this

theorem process_groups_cons_some {constraints : ConstraintMap}
    {holidays : List Holiday} {d : Date} {group_id : String}
    {members : List String} {rest : Groups} {st : RunState}
    {ds : List (String × String)} {fbs : List String} {st' : RunState}
    (h : process_groups constraints holidays d ((group_id, members) :: rest) st
      = some (ds, fbs, st')) :
    ∃ chosen fb st1 ds2 fbs2,
      process_group constraints holidays d st group_id members
        = some (chosen, fb, st1) ∧
      process_groups constraints holidays d rest st1 = some (ds2, fbs2, st') ∧
      ds = (group_id, chosen) :: ds2 ∧
      fbs = (if fb then [group_id] else []) ++ fbs2 := by
  rw [process_groups] at h
  split at h
  · cases h
  · next ch fb st1 hpg =>
    split at h
    · cases h
    · next ds2 fbs2 st2 hrest =>
      injection h with h
      injection h with h1 h
      injection h with h2 h3
      exact ⟨ch, fb, st1, ds2, fbs2, hpg, h3 ▸ hrest, h1.symm, h2.symm⟩

theorem process_groups_nil_some {constraints : ConstraintMap}
    {holidays : List Holiday} {d : Date} {st : RunState}
    {ds : List (String × String)} {fbs : List String} {st' : RunState}
    (h : process_groups constraints holidays d [] st = some (ds, fbs, st')) :
    ds = [] ∧ fbs = [] ∧ st' = st := by
  rw [process_groups] at h
  injection h with h
  injection h with h1 h
  injection h with h2 h3
  exact ⟨h1.symm, h2.symm, h3.symm⟩

theorem process_groups_last_frame {constraints : ConstraintMap}
    {holidays : List Holiday} {d : Date} :
    ∀ {gs : Groups} {st : RunState} {ds : List (String × String)}
      {fbs : List String} {st' : RunState} {p : String},
      process_groups constraints holidays d gs st = some (ds, fbs, st') →
      (∀ g ∈ gs, p ∉ g.2) →
      alookup st'.last_scheduled p = alookup st.last_scheduled p := by
  intro gs
  induction gs with
  | nil =>
    intro st ds fbs st' p h hnot
    rw [(process_groups_nil_some h).2.2]
  | cons g rest ih =>
    intro st ds fbs st' p h hnot
    obtain ⟨gid, members⟩ := g
    obtain ⟨ch, fb, st1, ds2, fbs2, hpg, hrest, -, -⟩ :=
      process_groups_cons_some h
    have hch : ch ∈ members := process_group_chosen_mem hpg
    have hne : p ≠ ch := by
      intro hc
      exact hnot (gid, members) (List.mem_cons_self _ _) (hc ▸ hch)
    have hst1 : alookup st1.last_scheduled p = alookup st.last_scheduled p := by
      obtain ⟨-, -, hl, -, -⟩ := process_group_some hpg
      rw [hl, alookup_cons, if_neg hne]
    rw [ih hrest (fun g hg => hnot g (List.mem_cons_of_mem _ hg)), hst1]

theorem process_groups_assigned_mem {constraints : ConstraintMap}
    {holidays : List Holiday} {d : Date} :
    ∀ {gs : Groups} {st : RunState} {ds : List (String × String)}
      {fbs : List String} {st' : RunState} {g p : String},
      process_groups constraints holidays d gs st = some (ds, fbs, st') →
      alookup ds g = some p →
      ∃ gm ∈ gs, gm.1 = g ∧ p ∈ gm.2 := by
  intro gs
  induction gs with
  | nil =>
    intro st ds fbs st' g p h hds
    rw [(process_groups_nil_some h).1] at hds
    cases hds
  | cons ge rest ih =>
    intro st ds fbs st' g p h hds
    obtain ⟨gid, members⟩ := ge
    obtain ⟨ch, fb, st1, ds2, fbs2, hpg, hrest, hds2, -⟩ :=
      process_groups_cons_some h
    rw [hds2, alookup_cons] at hds
    by_cases hg : g = gid
    · rw [if_pos hg] at hds
      injection hds with hds
      exact ⟨(gid, members), List.mem_cons_self _ _, hg.symm,
        hds ▸ process_group_chosen_mem hpg⟩
    · rw [if_neg hg] at hds
      obtain ⟨gm, hgm, hgm1, hgm2⟩ := ih hrest hds
      exact ⟨gm, List.mem_cons_of_mem _ hgm, hgm1, hgm2⟩

theorem process_groups_last_write {constraints : ConstraintMap}
    {holidays : List Holiday} {d : Date} :
    ∀ {gs : Groups} {st : RunState} {ds : List (String × String)}
      {fbs : List String} {st' : RunState} {g p : String},
      process_groups constraints holidays d gs st = some (ds, fbs, st') →
      gs.Pairwise (fun g1 g2 => ∀ q, q ∈ g1.2 → q ∉ g2.2) →
      alookup ds g = some p →
      alookup st'.last_scheduled p = some d.ord := by
  intro gs
  induction gs with
  | nil =>
    intro st ds fbs st' g p h hdisj hds
    rw [(process_groups_nil_some h).1] at hds
    cases hds
  | cons ge rest ih =>
    intro st ds fbs st' g p h hdisj hds
    obtain ⟨gid, members⟩ := ge
    obtain ⟨hhead, htail⟩ := List.pairwise_cons.mp hdisj
    obtain ⟨ch, fb, st1, ds2, fbs2, hpg, hrest, hds2, -⟩ :=
      process_groups_cons_some h
    rw [hds2, alookup_cons] at hds
    by_cases hg : g = gid
    · rw [if_pos hg] at hds
      injection hds with hds
      subst hds
      have hch : ch ∈ members := process_group_chosen_mem hpg
      have hst1 : alookup st1.last_scheduled ch = some d.ord := by
        obtain ⟨-, -, hl, -, -⟩ := process_group_some hpg
        rw [hl, alookup_cons, if_pos rfl]
      rw [process_groups_last_frame hrest
        (fun g2 hg2 => hhead g2 hg2 ch hch), hst1]
    · rw [if_neg hg] at hds
      exact ih hrest htail hds

theorem process_groups_no_repeat {constraints : ConstraintMap}
    {holidays : List Holiday} {d : Date} :
    ∀ {gs : Groups} {st : RunState} {ds : List (String × String)}
      {fbs : List String} {st' : RunState} {g p : String},
      process_groups constraints holidays d gs st = some (ds, fbs, st') →
      gs.Pairwise (fun g1 g2 => ∀ q, q ∈ g1.2 → q ∉ g2.2) →
      alookup ds g = some p →
      alookup st.last_scheduled p = some (d.ord - 1) →
      g ∈ fbs := by
  intro gs
  induction gs with
  | nil =>
    intro st ds fbs st' g p h hdisj hds hlast
    rw [(process_groups_nil_some h).1] at hds
    cases hds
  | cons ge rest ih =>
    intro st ds fbs st' g p h hdisj hds hlast
    obtain ⟨gid, members⟩ := ge
    obtain ⟨hhead, htail⟩ := List.pairwise_cons.mp hdisj
    obtain ⟨ch, fb, st1, ds2, fbs2, hpg, hrest, hds2, hfbs2⟩ :=
      process_groups_cons_some h
    rw [hds2, alookup_cons] at hds
    by_cases hg : g = gid
    · rw [if_pos hg] at hds
      injection hds with hds
      subst hds
      have hfb : fb = true := process_group_no_repeat hpg hlast
      rw [hfbs2, hfb, if_pos rfl]
      exact hg ▸ List.mem_append_left _ (List.mem_cons_self _ _)
    · rw [if_neg hg] at hds
      obtain ⟨gm, hgm, hgm1, hgm2⟩ := process_groups_assigned_mem hrest hds
      have hchp : ch ≠ p := by
        intro hc
        exact hhead gm hgm ch (process_group_chosen_mem hpg) (hc ▸ hgm2)
      have hlast1 : alookup st1.last_scheduled p = some (d.ord - 1) := by
        obtain ⟨-, -, hl, -, -⟩ := process_group_some hpg
        rw [hl, alookup_cons, if_neg (fun hc => hchp hc.symm)]
        exact hlast
      have := ih hrest htail hds hlast1
      rw [hfbs2]
      exact List.mem_append_right _ this

theorem run_days_nil_some {constraints : ConstraintMap}
    {holidays : List Holiday} {groups : Groups} {y m : Nat} {st : RunState}
    {sch : List (Nat × List (String × String))} {fbl : List (Nat × String)}
    {st' : RunState}
    (h : run_days constraints holidays groups y m [] st = some (sch, fbl, st')) :
    sch = [] ∧ fbl = [] ∧ st' = st := by
  rw [run_days] at h
  injection h with h
  injection h with h1 h
  injection h with h2 h3
  exact ⟨h1.symm, h2.symm, h3.symm⟩

theorem run_days_cons_some {constraints : ConstraintMap}
    {holidays : List Holiday} {groups : Groups} {y m : Nat} {a : Nat}
    {rest : List Nat} {st : RunState}
    {sch : List (Nat × List (String × String))} {fbl : List (Nat × String)}
    {st' : RunState}
    (h : run_days constraints holidays groups y m (a :: rest) st
      = some (sch, fbl, st')) :
    ∃ ds fbs st1 sch2 fbl2,
      process_groups constraints holidays ⟨y, m, a⟩ groups st
        = some (ds, fbs, st1) ∧
      run_days constraints holidays groups y m rest st1
        = some (sch2, fbl2, st') ∧
      sch = (a, ds) :: sch2 ∧
      fbl = fbs.map (fun g => (a, g)) ++ fbl2 := by
  rw [run_days] at h
  split at h
  · cases h
  · next ds fbs st1 hpgs =>
    split at h
    · cases h
    · next sch2 fbl2 st2 hrest =>
      injection h with h
      injection h with h1 h
      injection h with h2 h3
      exact ⟨ds, fbs, st1, sch2, fbl2, hpgs, h3 ▸ hrest, h1.symm, h2.symm⟩

theorem run_days_sched_keys {constraints : ConstraintMap}
    {holidays : List Holiday} {groups : Groups} {y m : Nat} :
    ∀ {days : List Nat} {st : RunState}
      {sch : List (Nat × List (String × String))} {fbl : List (Nat × String)}
      {st' : RunState},
      run_days constraints holidays groups y m days st = some (sch, fbl, st') →
      sch.map Prod.fst = days := by
  intro days
  induction days with
  | nil =>
    intro st sch fbl st' h
    rw [(run_days_nil_some h).1]
    rfl
  | cons a rest ih =>
    intro st sch fbl st' h
    obtain ⟨ds, fbs, st1, sch2, fbl2, -, hrest, hsch, -⟩ := run_days_cons_some h
    rw [hsch, List.map_cons, ih hrest]

theorem chain_succ_lt :
    ∀ (rest : List Nat) (a : Nat),
      List.Chain' (fun x y => y = x + 1) (a :: rest) → ∀ x ∈ rest, a < x := by
  intro rest
  induction rest with
  | nil =>
    intro a _ x hx
    cases hx
  | cons b rest' ih =>
    intro a hch x hx
    obtain ⟨hab, hch'⟩ := List.chain'_cons.mp hch
    rcases List.mem_cons.mp hx with hx | hx
    · rw [hx, hab]
      exact Nat.lt_succ_self a
    · exact Nat.lt_trans (by rw [hab]; exact Nat.lt_succ_self a)
        (ih b hch' x hx)

theorem range'_chain :
    ∀ (n s : Nat), List.Chain' (fun x y => y = x + 1) (List.range' s n) := by
  intro n
  induction n with
  | zero =>
    intro s
    exact List.chain'_nil
  | succ k ih =>
    intro s
    rw [List.range'_succ]
    cases k with
    | zero => exact List.chain'_singleton s
    | succ k2 =>
      rw [List.range'_succ]
      exact List.chain'_cons.mpr ⟨rfl, by rw [← List.range'_succ]; exact ih (s + 1)⟩

theorem run_days_no_consec {constraints : ConstraintMap}
    {holidays : List Holiday} {groups : Groups} {y m : Nat}
    (hdisj : groups.Pairwise (fun g1 g2 => ∀ q, q ∈ g1.2 → q ∉ g2.2)) :
    ∀ (days : List Nat) (st : RunState)
      (sch : List (Nat × List (String × String))) (fbl : List (Nat × String))
      (st' : RunState),
      List.Chain' (fun x y => y = x + 1) days →
      run_days constraints holidays groups y m days st = some (sch, fbl, st') →
      ∀ day g p, schedLookup sch day g = some p →
        schedLookup sch (day + 1) g = some p →
        (day + 1, g) ∈ fbl := by
  intro days
  induction days with
  | nil =>
    intro st sch fbl st' hch hrun day g p h1 h2
    rw [(run_days_nil_some hrun).1] at h1
    cases h1
  | cons a rest ih =>
    intro st sch fbl st' hch hrun day g p h1 h2
    obtain ⟨ds, fbs, st1, sch2, fbl2, hpgs, hrest, hsch, hfbl⟩ :=
      run_days_cons_some hrun
    rw [hsch] at h1 h2
    rw [hfbl]
    by_cases hda : day = a
    · subst hda
      rw [schedLookup, alookup_cons, if_pos rfl] at h1
      have hds : alookup ds g = some p := h1
      rw [schedLookup, alookup_cons, if_neg (Nat.succ_ne_self day)] at h2
      cases rest with
      | nil =>
        rw [(run_days_nil_some hrest).1] at h2
        cases h2
      | cons b rest2 =>
        obtain ⟨hab, hch2⟩ := List.chain'_cons.mp hch
        obtain ⟨ds1, fbs1, st2, sch3, fbl3, hpgs1, hrest1, hsch2, hfbl2⟩ :=
          run_days_cons_some hrest
        rw [hsch2, alookup_cons, if_pos hab.symm] at h2
        have hds1 : alookup ds1 g = some p := h2
        have hw : alookup st1.last_scheduled p
            = some ((⟨y, m, day⟩ : Date).ord) :=
          process_groups_last_write hpgs hdisj hds
        have hlast1 : alookup st1.last_scheduled p
            = some ((⟨y, m, b⟩ : Date).ord - 1) := by
          rw [hab]
          exact hw
        have hfbmem : g ∈ fbs1 :=
          process_groups_no_repeat hpgs1 hdisj hds1 hlast1
        refine List.mem_append_right _ ?_
        rw [hfbl2]
        refine List.mem_append_left _ ?_
        exact List.mem_map.mpr ⟨g, hfbmem, by rw [hab]⟩
    · rw [schedLookup, alookup_cons, if_neg hda] at h1
      have hmem : day ∈ rest := by
        cases halt : alookup sch2 day with
        | none =>
          rw [halt] at h1
          cases h1
        | some ds2 =>
          rw [← run_days_sched_keys hrest]
          exact alookup_mem_keys sch2 day ds2 halt
      have hlt : a < day := chain_succ_lt rest a hch day hmem
      have hda1 : day + 1 ≠ a := by
        intro hc
        rw [← hc] at hlt
        exact Nat.lt_irrefl _ (Nat.lt_of_succ_lt hlt)
      rw [schedLookup, alookup_cons, if_neg hda1] at h2
      exact List.mem_append_right _
        (ih st1 sch2 fbl2 st' (List.Chain'.tail hch) hrest day g p h1 h2)

/-- C5 (amended): provided no person belongs to more than one group (the
group member lists are pairwise disjoint), no person is assigned on two
consecutive calendar dates for the same group in a schedule returned by
`generate_monthly_schedule`, except on a day where that group's eligibility
set was empty and the fallback to the full member list fired (the fallback
log records exactly those (day, group) pairs).  The disjointness hypothesis
is forced by the counterexample below: the scheduler keys `last_scheduled`
by person name only, so a same-day assignment of a shared member in an
earlier-iterated group overwrites the record of yesterday's assignment and
defeats the eligibility filter. -/
theorem c5_no_consecutive_without_fallback (y m : Nat)
    (holidays : List Holiday) (groups : Groups) (constraints : ConstraintMap)
    (ledger0 : List AHRecord)
    (hdisj : groups.Pairwise (fun g1 g2 => ∀ q, q ∈ g1.2 → q ∉ g2.2)) :
    ∀ led fbl sch,
      generate_monthly_schedule y m holidays groups constraints ledger0
        = (led, fbl, .ok sch) →
      ∀ day g p, schedLookup sch day g = some p →
        schedLookup sch (day + 1) g = some p →
        (day + 1, g) ∈ fbl := by
  intro led fbl sch hgen
  by_cases hg : groups.isEmpty
  · rw [generate_monthly_schedule, if_pos hg] at hgen
    injection hgen with h1 h
    injection h with h2 h3
    cases h3
  · by_cases he : ((groups.filter (fun g => g.2.isEmpty)).map (·.1)).isEmpty
    · cases hf : groups.find?
          (fun g => decide (g.2.length < min_group_members)) with
      | some gg =>
        rw [generate_monthly_schedule, if_neg hg,
          if_neg (not_not_intro he), hf] at hgen
        injection hgen with h1 h
        injection h with h2 h3
        cases h3
      | none =>
        rw [generate_eq_run y m holidays groups constraints ledger0
          hg he hf] at hgen
        split at hgen
        · injection hgen with h1 h
          injection h with h2 h3
          cases h3
        · next sch0 fbl0 st0 hrun =>
          split at hgen
          · next p0 req0 act0 hc =>
            injection hgen with h1 h
            injection h with h2 h3
            cases h3
          · next hc =>
            injection hgen with h1 h
            injection h with h2 h3
            injection h3 with h3
            subst h2
            subst h3
            exact run_days_no_consec hdisj _ _ _ _ _
              (range'_chain (daysInMonth y m) 1) hrun
    · rw [generate_monthly_schedule, if_neg hg, if_pos he] at hgen
      injection hgen with h1 h
      injection h with h2 h3
      cases h3

/-- Witness for C5 (amended) at a single two-member group over January
2024: the disjointness hypothesis holds, the run succeeds, and the
no-consecutive-without-fallback property follows from the theorem. -/
theorem c5_no_consecutive_without_fallback_witness :
    ([("g1", ["A", "B"])] : Groups).Pairwise
      (fun g1 g2 => ∀ q, q ∈ g1.2 → q ∉ g2.2) ∧
    genOk (generate_monthly_schedule 2024 1 [] [("g1", ["A", "B"])] [] [])
      = true ∧
    (∀ led fbl sch,
      generate_monthly_schedule 2024 1 [] [("g1", ["A", "B"])] [] []
        = (led, fbl, .ok sch) →
      ∀ day g p, schedLookup sch day g = some p →
        schedLookup sch (day + 1) g = some p →
        (day + 1, g) ∈ fbl) :=
  ⟨by decide, by decide,
   c5_no_consecutive_without_fallback 2024 1 [] [("g1", ["A", "B"])] [] []
     (by decide)⟩

/-- C5 counterexample: with the three groups `A = [P, X]`, `A2 = [R, Y]`
and `B = [P, R]` (P and R each belong to two groups) and no holidays or
constraints, the February 2023 run returned by `generate_monthly_schedule`
assigns `P` to group `B` on both day 2 and day 3, yet group `B`'s
eligibility fallback did *not* fire on day 3 — refuting the claim that
consecutive same-group assignments happen only on fallback days.
(`P` was re-eligible on day 3 because group `A`'s fallback had assigned
`P` earlier that same day, overwriting `last_scheduled["P"]`.) -/
theorem c5_consecutive_without_fallback_counterexample :
    genOk (generate_monthly_schedule 2023 2 []
      [("A", ["P", "X"]), ("A2", ["R", "Y"]), ("B", ["P", "R"])] [] [])
      = true ∧
    schedLookup (okSched (generate_monthly_schedule 2023 2 []
      [("A", ["P", "X"]), ("A2", ["R", "Y"]), ("B", ["P", "R"])] [] []))
      2 "B" = some "P" ∧
    schedLookup (okSched (generate_monthly_schedule 2023 2 []
      [("A", ["P", "X"]), ("A2", ["R", "Y"]), ("B", ["P", "R"])] [] []))
      3 "B" = some "P" ∧
    (3, "B") ∉ (generate_monthly_schedule 2023 2 []
      [("A", ["P", "X"]), ("A2", ["R", "Y"]), ("B", ["P", "R"])] [] []).2.1 := by
  refine ⟨by decide, by decide, by decide, by decide⟩

end Scheduler
